import Mathlib

/-!
Verification of the LOCAL_BOORU image indexer (`image_booru.py`).

Strings are modelled as `List Char`; Python's `str.lower` is modelled on the
ASCII range (the only range the repository's data exercises), `str.strip`
strips the six ASCII whitespace characters Python strips, and `str.split(",")`
is modelled exactly (empty pieces included).  File-modification times are
modelled as rationals built with core `Rat` operations so that every
definition evaluates inside the kernel.
-/

/-- A Python string, modelled as its list of characters. -/
abbrev Str := List Char

/-- The ASCII whitespace characters stripped by Python's `str.strip()`. -/
def isPySpace (c : Char) : Bool :=
  c = ' ' || c = '\t' || c = '\n' || c = '\r' || c = '\x0b' || c = '\x0c'

/-- The ASCII uppercase/lowercase pairs acted on by `str.lower()`. -/
def upperLower : List (Char × Char) :=
  [('A','a'), ('B','b'), ('C','c'), ('D','d'), ('E','e'), ('F','f'), ('G','g'),
   ('H','h'), ('I','i'), ('J','j'), ('K','k'), ('L','l'), ('M','m'), ('N','n'),
   ('O','o'), ('P','p'), ('Q','q'), ('R','r'), ('S','s'), ('T','t'), ('U','u'),
   ('V','v'), ('W','w'), ('X','x'), ('Y','y'), ('Z','z')]

/-- `str.lower()` on one character (ASCII range). -/
def pyLowerChar (c : Char) : Char :=
  ((upperLower.find? (fun p => p.1 = c)).map Prod.snd).getD c

/-- `str.lower()` on a whole string. -/
def pyLower (s : Str) : Str := s.map pyLowerChar

/-- `str.strip()`: remove leading and trailing whitespace. -/
def pyStrip (s : Str) : Str :=
  ((s.dropWhile isPySpace).reverse.dropWhile isPySpace).reverse

/-- `s.split(",")` in Python: split at every comma, keeping empty pieces. -/
def splitOnComma : Str → List Str
  | [] => [[]]
  | c :: rest =>
    if c = ',' then [] :: splitOnComma rest
    else
      match splitOnComma rest with
      | [] => [[c]]
      | p :: ps => (c :: p) :: ps

/-- The lower-cased marker searched for by `parse_positive_prompt`. -/
def negMarker : Str := "negative prompt:".data

/-- Whether the case-insensitive marker `"Negative prompt:"` occurs in `s`
starting at index `i`. -/
def markerAt (s : Str) (i : Nat) : Bool :=
  ((s.drop i).take negMarker.length).map pyLowerChar = negMarker

/-- Largest index `< n` at which the marker occurs, if any.  Scanning from the
top models the greedy `(.*)` of the regex `(.*)Negative prompt:` (with
`re.DOTALL`), whose group 1 extends to the last occurrence of the marker. -/
def lastMarkerAux (s : Str) : Nat → Option Nat
  | 0 => none
  | n + 1 => if markerAt s n then some n else lastMarkerAux s n

/-- Index at which the greedy regex match of `(.*)Negative prompt:` ends its
first group: the last occurrence of the marker. -/
def lastMarkerPos (s : Str) : Option Nat := lastMarkerAux s s.length

/-- `parse_positive_prompt` (image_booru.py, lines 19-29): everything before
the marker found by `re.search(r"(.*)Negative prompt:", ..., IGNORECASE |
DOTALL)`, stripped; the whole text stripped when there is no match. -/
def parse_positive_prompt (metadata_text : Str) : Str :=
  match lastMarkerPos metadata_text with
  | some i => pyStrip (metadata_text.take i)
  | none => pyStrip metadata_text

/-- Step 1 of `clean_prompt_text`: `re.sub(r"[()]", "", prompt)`. -/
def removeParens (s : Str) : Str :=
  s.filter (fun c => !(c = '(' || c = ')'))

/-- One attempted match of the pattern `:[0-9]+(\.[0-9]+)?` at the head of the
input; on success returns the rest of the input after the (greedy, maximal)
match. -/
def matchColonNum : Str → Option Str
  | ':' :: rest =>
    if (rest.takeWhile Char.isDigit).isEmpty then none
    else
      match rest.dropWhile Char.isDigit with
      | '.' :: r2 =>
        if (r2.takeWhile Char.isDigit).isEmpty then some (rest.dropWhile Char.isDigit)
        else some (r2.dropWhile Char.isDigit)
      | r1 => some r1
  | _ => none

/-- Left-to-right scan performing `re.sub(r":[0-9]+(\.[0-9]+)?", "", s)`:
at each position, remove a maximal colon-number match and continue after it,
otherwise keep the character.  The fuel argument only serves structural
recursion; a successful match always consumes at least the colon, so fuel
equal to the input length never runs out. -/
def rcnAux : Nat → Str → Str
  | _, [] => []
  | 0, l => l
  | fuel + 1, c :: l =>
    match matchColonNum (c :: l) with
    | some r => rcnAux fuel r
    | none => c :: rcnAux fuel l

/-- Step 2 of `clean_prompt_text`: `re.sub(r":[0-9]+(\.[0-9]+)?", "", s)`. -/
def removeColonNum (s : Str) : Str := rcnAux s.length s

/-- `clean_prompt_text` (image_booru.py, lines 31-56): first remove all
parentheses, then remove colon-number weight suffixes. -/
def clean_prompt_text (prompt : Str) : Str :=
  removeColonNum (removeParens prompt)

/-- `tokenize_prompt` (image_booru.py, lines 58-65): split on commas, strip
and lower-case each piece, drop empty pieces, collapse duplicates
(`list(set(...))`, modelled by a deterministic deduplication). -/
def tokenize_prompt (prompt : Str) : List Str :=
  (((splitOnComma prompt).filter (fun t => !(pyStrip t).isEmpty)).map
    (fun t => pyLower (pyStrip t))).dedup

/-- The spec's `extract_tags`: the full Text Normalizer pipeline as composed
by `parse_and_store_tags` — isolate the positive prompt, clean it, tokenize. -/
def extract_tags (raw_text : Str) : List Str :=
  tokenize_prompt (clean_prompt_text (parse_positive_prompt raw_text))

/-- The mtime tolerance `1e-9` of `load_images_and_tags`. -/
def timeEps : ℚ := mkRat 1 1000000000

/-- The staleness test `abs(cached_mtime - mtime) < 1e-9`
(image_booru.py, line 127), written by cross-multiplication over the
numerators and denominators so that it evaluates inside the kernel;
`timeClose_iff` proves it equivalent to `|a - b| < timeEps`. -/
def timeClose (a b : ℚ) : Bool :=
  decide ((a.num * (b.den : Int) - b.num * (a.den : Int)).natAbs * 1000000000
    < a.den * b.den)

/-- One value of the JSON cache dictionary, as loaded from disk.  A
well-formed entry is a JSON object whose `"tags"` field (when present) is a
list of strings and whose `"mtime"` field (when present) is a number; a
malformed entry may omit either field (`obj`) or fail to be an object at all
(`nonObj`). -/
inductive CEntry where
  | obj (tags : Option (List Str)) (mtime : Option ℚ)
  | nonObj
deriving DecidableEq

/-- The in-memory cache dictionary: an insertion-ordered association list
from path to entry, as a Python dict. -/
abbrev Cache := List (Str × CEntry)

/-- Python dict lookup `cache_dict[path]` / `path in cache_dict`. -/
def cacheGet : Cache → Str → Option CEntry
  | [], _ => none
  | (q, e) :: rest, p => if q = p then some e else cacheGet rest p

/-- Python dict assignment `cache_dict[path] = entry`: update in place if the
key exists, append otherwise. -/
def cacheSet : Cache → Str → CEntry → Cache
  | [], p, e => [(p, e)]
  | (q, e0) :: rest, p, e =>
    if q = p then (p, e) :: rest else (q, e0) :: cacheSet rest p e

/-- The state of the persisted cache file: absent, present but unparseable,
or present with a parsed dictionary. -/
inductive CacheFile where
  | absent
  | corrupt
  | valid (c : Cache)
deriving DecidableEq

/-- `load_cache` (image_booru.py, lines 71-89): missing file yields `{}`; the
bare `except:` around `json.load` turns any parse failure into `{}`; a
successfully parsed file yields its dictionary unchanged. -/
def load_cache : CacheFile → Cache
  | .absent => []
  | .corrupt => []
  | .valid c => c

/-- `save_cache` (image_booru.py, lines 91-96): writes the whole dictionary
as JSON, which round-trips back to the same dictionary. -/
def save_cache (cache_data : Cache) : CacheFile := .valid cache_data

/-- One file observed by the `os.walk` enumeration: its full path, its
current modification time, and the result of reading its embedded metadata —
`some text` is the newline-joined concatenation of the PNG's text fields,
`none` means opening or reading the file raises an exception. -/
structure PFile where
  path : Str
  mtime : ℚ
  meta : Option Str
deriving DecidableEq

/-- The tags computed inside the `try` of `parse_and_store_tags`: the
Normalizer pipeline on the metadata text, or `[]` when reading raised. -/
def tagsOfMeta : Option Str → List Str
  | some txt => extract_tags txt
  | none => []

/-- `parse_and_store_tags` (image_booru.py, lines 148-177): compute the tags
(an exception during extraction degrades to `[]`), overwrite the cache entry
for the path with the new tags and mtime, and return the tags. -/
def parse_and_store_tags (full_path : Str) (mtime : ℚ) (meta : Option Str)
    (cache_dict : Cache) : List Str × Cache :=
  let tags := tagsOfMeta meta
  (tags, cacheSet cache_dict full_path (.obj (some tags) (some mtime)))

/-- The Python exceptions that can escape `load_images_and_tags`:
`.get` on a non-dict entry raises `AttributeError`; `["tags"]` on a dict
without that key raises `KeyError`. -/
inductive PyErr where
  | attrError
  | keyError
deriving DecidableEq

/-- The per-file body of the scan loop (image_booru.py, lines 123-134):
consult the cache, reuse fresh tags, otherwise re-parse.  Returns the tags,
the updated cache, and whether extraction was attempted. -/
def processFile (cache_dict : Cache) (f : PFile) :
    Except PyErr (List Str × Cache × Bool) :=
  match cacheGet cache_dict f.path with
  | some .nonObj => .error .attrError
  | some (.obj tagsOpt mtimeOpt) =>
    if timeClose (mtimeOpt.getD 0) f.mtime then
      match tagsOpt with
      | some ts => .ok (ts, cache_dict, false)
      | none => .error .keyError
    else
      let r := parse_and_store_tags f.path f.mtime f.meta cache_dict
      .ok (r.1, r.2, true)
  | none =>
    let r := parse_and_store_tags f.path f.mtime f.meta cache_dict
    .ok (r.1, r.2, true)

/-- `filename.lower().endswith(".png")` (image_booru.py, line 119). -/
def endsWithPng (p : Str) : Bool := ".png".data.isSuffixOf (pyLower p)

/-- Python set insertion `all_tags.add(t)`, modelled on an insertion-ordered
duplicate-free list. -/
def addTag (l : List Str) (t : Str) : List Str :=
  if t ∈ l then l else l ++ [t]

/-- `for t in tags: all_tags.add(t)` (image_booru.py, lines 140-141). -/
def addAll (l : List Str) (ts : List Str) : List Str := ts.foldl addTag l

/-- Lexicographic comparison of strings by code point, as Python `sorted`. -/
def strLe : Str → Str → Bool
  | [], _ => true
  | _ :: _, [] => false
  | a :: as, b :: bs =>
    if a.toNat < b.toNat then true
    else if b.toNat < a.toNat then false
    else strLe as bs

/-- Insertion into a sorted list of strings. -/
def insertSorted (x : Str) : List Str → List Str
  | [] => [x]
  | y :: ys => if strLe x y then x :: y :: ys else y :: insertSorted x ys

/-- `sorted(list(all_tags))` (image_booru.py, line 146). -/
def sortStrs : List Str → List Str
  | [] => []
  | x :: xs => insertSorted x (sortStrs xs)

/-- The mutable state threaded through the scan loop, plus the list of paths
on which extraction was attempted (the observable extraction count). -/
structure ScanState where
  images : List (Str × List Str)
  allTags : List Str
  cache : Cache
  extracted : List Str
deriving DecidableEq

/-- One iteration of the `os.walk` loop (image_booru.py, lines 117-141):
non-`.png` files are skipped; for a `.png` file the cache is consulted, the
image and its tags are appended, and the tag vocabulary grows. -/
def scanStep (st : ScanState) (f : PFile) : Except PyErr ScanState :=
  if endsWithPng f.path then
    match processFile st.cache f with
    | .error e => .error e
    | .ok (ts, c, did) =>
      .ok { images := st.images ++ [(f.path, ts)],
            allTags := addAll st.allTags ts,
            cache := c,
            extracted := if did then st.extracted ++ [f.path] else st.extracted }
  else .ok st

/-- The whole walk loop: an unhandled exception aborts it immediately. -/
def runScan (st : ScanState) : List PFile → Except PyErr ScanState
  | [] => .ok st
  | f :: fs =>
    match scanStep st f with
    | .error e => .error e
    | .ok st1 => runScan st1 fs

/-- The visible outcome of a completed `load_images_and_tags` call: the
returned `images_data` and `all_tags`, the cache file written by
`save_cache`, and the instrumented list of extraction attempts. -/
structure ScanOut where
  images : List (Str × List Str)
  vocab : List Str
  saved : CacheFile
  extracted : List Str
deriving DecidableEq

/-- `load_images_and_tags` (image_booru.py, lines 101-146), applied to the
files yielded by `os.walk(root_dir)` in walk order and to the state of the
persisted cache file.  On success the updated cache is saved once and
`(images_data, sorted(all_tags))` is returned; an exception raised inside the
loop propagates to the caller and nothing is saved. -/
def load_images_and_tags (files : List PFile) (cf : CacheFile) :
    Except PyErr ScanOut :=
  match runScan ⟨[], [], load_cache cf, []⟩ files with
  | .error e => .error e
  | .ok st =>
    .ok ⟨st.images, sortStrs st.allTags, save_cache st.cache, st.extracted⟩

/-- Modelled from Python semantics: `os.walk` on a missing or inaccessible
root directory ignores the scandir error and yields no triples at all, so the
walk of such a root is the empty enumeration. -/
def walkMissingRoot : List PFile := []

/-- Projection: the cache file saved by a completed scan. -/
def scanSaved : Except PyErr ScanOut → Option CacheFile
  | .ok o => some o.saved
  | .error _ => none

/-- Projection: the extraction attempts of a completed scan. -/
def scanExtracted : Except PyErr ScanOut → Option (List Str)
  | .ok o => some o.extracted
  | .error _ => none

/-- The query filter of `main` (image_booru.py, lines 274-279): an empty
selection leaves `images_data` unfiltered, otherwise keep the images whose
tag list contains every selected tag (`selected_set.issubset(img["tags"])`). -/
def filterImages (images_data : List (Str × List Str)) (selected : List Str) :
    List (Str × List Str) :=
  if selected.isEmpty then images_data
  else images_data.filter (fun im => decide (∀ q ∈ selected, q ∈ im.2))

/-- The cache holds a well-formed entry for `f.path` whose recorded mtime
matches the file's current mtime within the tolerance, so the scan loop will
reuse its tags. -/
def isFreshEntry (c : Cache) (f : PFile) : Bool :=
  match cacheGet c f.path with
  | some (.obj (some _) mo) => timeClose (mo.getD 0) f.mtime
  | _ => false

/-- The cache holds an object entry for `f.path` whose recorded mtime (0 when
the field is missing) does not match the current one, so the scan loop will
re-extract. -/
def isStaleEntry (c : Cache) (f : PFile) : Bool :=
  match cacheGet c f.path with
  | some (.obj _ mo) => !timeClose (mo.getD 0) f.mtime
  | _ => false

/-- Concrete annotation text with two occurrences of the marker. -/
def twoMarkerText : Str := "a, Negative prompt: b, Negative prompt: c".data

/-- A concrete readable file used in witnesses. -/
def fileA : PFile := ⟨"a.png".data, mkRat 5 1, some "x".data⟩

/-- A concrete file whose cache entry below is stale. -/
def fileB : PFile := ⟨"b.png".data, mkRat 7 1, some "y, z".data⟩

/-- A concrete cache: fresh for `fileA`, stale for `fileB`. -/
def cacheAB : Cache :=
  [("a.png".data, .obj (some ["x".data]) (some (mkRat 5 1))),
   ("b.png".data, .obj (some ["old".data]) (some (mkRat 6 1)))]

/-- A concrete file whose metadata reads successfully. -/
def fileXY : PFile := ⟨"a.png".data, mkRat 5 1, some "x, y".data⟩

/-- A concrete file whose metadata extraction raises. -/
def fileBad : PFile := ⟨"bad.png".data, mkRat 3 1, none⟩

/-- A concrete file observed while the cache holds malformed entries for it. -/
def fileM : PFile := ⟨"m.png".data, mkRat 2 1, some "t".data⟩

/-- A concrete image fixture: one match for `{x, y}`, one partial overlap,
one disjoint. -/
def imagesFix : List (Str × List Str) :=
  [("p1".data, ["x".data, "y".data, "z".data]),
   ("p2".data, ["x".data]),
   ("p3".data, ["w".data])]

/-! ### Character-level facts about the ASCII `lower` table -/

theorem upperLower_spec : ∀ p ∈ upperLower,
    isPySpace p.1 = false ∧ isPySpace p.2 = false ∧ p.1 ≠ ',' ∧ p.2 ≠ ',' ∧
    pyLowerChar p.2 = p.2 := by decide

theorem pyLowerChar_cases (c : Char) :
    pyLowerChar c = c ∨ ∃ p ∈ upperLower, p.1 = c ∧ pyLowerChar c = p.2 := by
  unfold pyLowerChar
  cases h : upperLower.find? (fun p => p.1 = c) with
  | none => exact Or.inl rfl
  | some p =>
    refine Or.inr ⟨p, List.mem_of_find?_eq_some h, ?_, rfl⟩
    simpa using List.find?_some h

theorem isPySpace_pyLowerChar (c : Char) :
    isPySpace (pyLowerChar c) = isPySpace c := by
  rcases pyLowerChar_cases c with h | ⟨p, hp, hc, h⟩
  · rw [h]
  · rw [h, ← hc]
    rcases upperLower_spec p hp with ⟨h1, h2, -⟩
    rw [h1, h2]

theorem pyLowerChar_idem (c : Char) :
    pyLowerChar (pyLowerChar c) = pyLowerChar c := by
  rcases pyLowerChar_cases c with h | ⟨p, hp, -, h⟩
  · rw [h, h]
  · rw [h]
    exact (upperLower_spec p hp).2.2.2.2

theorem pyLowerChar_eq_comma {c : Char} (h : pyLowerChar c = ',') : c = ',' := by
  rcases pyLowerChar_cases c with h0 | ⟨p, hp, hc, h0⟩
  · rwa [h0] at h
  · rw [h0] at h
    exact absurd h (upperLower_spec p hp).2.2.2.1

theorem pyLower_pyLower (s : Str) : pyLower (pyLower s) = pyLower s := by
  induction s with
  | nil => rfl
  | cons c t ih => simp [pyLower, pyLowerChar_idem] at ih ⊢

/-! ### Facts about `pyStrip` -/

theorem dropWhile_eq_self_of_head? {α : Type} {p : α → Bool} {l : List α}
    (h : ∀ c, l.head? = some c → p c = false) : l.dropWhile p = l := by
  cases l with
  | nil => rfl
  | cons c t =>
    rw [List.dropWhile_cons, h c rfl]
    simp

theorem head?_dropWhile_false {α : Type} {p : α → Bool} {l : List α} {c : α}
    (h : (l.dropWhile p).head? = some c) : p c = false := by
  have h2 := List.head?_dropWhile_not p l
  rw [h] at h2
  exact h2

theorem getLast?_of_suffix {α : Type} {l1 l2 : List α} {c : α}
    (hs : l1 <:+ l2) (h : l1.getLast? = some c) : l2.getLast? = some c := by
  obtain ⟨t, rfl⟩ := hs
  rw [List.getLast?_append, h]
  rfl

theorem pyStrip_head? {s : Str} {c : Char} (h : (pyStrip s).head? = some c) :
    isPySpace c = false := by
  unfold pyStrip at h
  rw [List.head?_reverse] at h
  have h2 : ((s.dropWhile isPySpace).reverse).getLast? = some c :=
    getLast?_of_suffix (List.dropWhile_suffix isPySpace) h
  rw [List.getLast?_reverse] at h2
  exact head?_dropWhile_false h2

theorem pyStrip_getLast? {s : Str} {c : Char}
    (h : (pyStrip s).getLast? = some c) : isPySpace c = false := by
  unfold pyStrip at h
  rw [List.getLast?_reverse] at h
  exact head?_dropWhile_false h

theorem pyStrip_eq_self {s : Str}
    (h1 : ∀ c, s.head? = some c → isPySpace c = false)
    (h2 : ∀ c, s.getLast? = some c → isPySpace c = false) : pyStrip s = s := by
  unfold pyStrip
  rw [dropWhile_eq_self_of_head? h1]
  rw [dropWhile_eq_self_of_head? (fun c hc => h2 c (by rwa [List.head?_reverse] at hc))]
  exact List.reverse_reverse s

theorem pyStrip_pyStrip (s : Str) : pyStrip (pyStrip s) = pyStrip s :=
  pyStrip_eq_self (fun _ h => pyStrip_head? h) (fun _ h => pyStrip_getLast? h)

theorem isPySpace_comp_pyLowerChar :
    isPySpace ∘ pyLowerChar = isPySpace := by
  funext c
  exact isPySpace_pyLowerChar c

theorem pyStrip_pyLower (s : Str) : pyStrip (pyLower s) = pyLower (pyStrip s) := by
  unfold pyStrip pyLower
  rw [List.dropWhile_map, isPySpace_comp_pyLowerChar, ← List.map_reverse,
    List.dropWhile_map, isPySpace_comp_pyLowerChar, ← List.map_reverse]

theorem mem_pyStrip {s : Str} {c : Char} (h : c ∈ pyStrip s) : c ∈ s := by
  unfold pyStrip at h
  rw [List.mem_reverse] at h
  have h2 := ((List.dropWhile_suffix isPySpace).sublist.mem h : _)
  rw [List.mem_reverse] at h2
  exact (List.dropWhile_sublist isPySpace).mem h2

theorem length_pyLower (s : Str) : (pyLower s).length = s.length :=
  List.length_map s pyLowerChar

/-! ### Facts about `splitOnComma` -/

theorem splitOnComma_ne_nil (s : Str) : splitOnComma s ≠ [] := by
  induction s with
  | nil => simp [splitOnComma]
  | cons c rest ih =>
    simp only [splitOnComma]
    split
    · simp
    · split <;> simp

theorem splitOnComma_no_comma :
    ∀ (s piece : Str), piece ∈ splitOnComma s → ',' ∉ piece := by
  intro s
  induction s with
  | nil =>
    intro piece h
    simp [splitOnComma] at h
    simp [h]
  | cons c rest ih =>
    intro piece h
    simp only [splitOnComma] at h
    by_cases hc : c = ','
    · rw [if_pos hc] at h
      rcases List.mem_cons.1 h with h1 | h1
      · simp [h1]
      · exact ih piece h1
    · rw [if_neg hc] at h
      cases hsp : splitOnComma rest with
      | nil => exact absurd hsp (splitOnComma_ne_nil rest)
      | cons p ps =>
        rw [hsp] at h
        rcases List.mem_cons.1 h with h1 | h1
        · subst h1
          intro hmem
          rcases List.mem_cons.1 hmem with h2 | h2
          · exact hc h2.symm
          · exact ih p (by rw [hsp]; exact List.mem_cons_self p ps) h2
        · exact ih piece (by rw [hsp]; exact List.mem_cons_of_mem p h1)

/-! ### Characterization of the marker search -/

theorem markerAt_le_length {s : Str} {i : Nat} (h : markerAt s i = true) :
    i + negMarker.length ≤ s.length := by
  unfold markerAt at h
  have h2 := of_decide_eq_true h
  have h3 := congrArg List.length h2
  rw [List.length_map, List.length_take, List.length_drop] at h3
  have h4 : negMarker.length = 16 := rfl
  omega

theorem lastMarkerAux_some {s : Str} :
    ∀ {n j : Nat}, lastMarkerAux s n = some j →
      markerAt s j = true ∧ j < n ∧ ∀ k, j < k → k < n → markerAt s k = false := by
  intro n
  induction n with
  | zero => intro j h; exact absurd h (by simp [lastMarkerAux])
  | succ n ih =>
    intro j h
    unfold lastMarkerAux at h
    by_cases hm : markerAt s n
    · rw [if_pos hm] at h
      cases h
      exact ⟨hm, Nat.lt_succ_self n, fun k hk1 hk2 => absurd hk2 (by omega)⟩
    · rw [if_neg hm] at h
      obtain ⟨h1, h2, h3⟩ := ih h
      refine ⟨h1, by omega, fun k hk1 hk2 => ?_⟩
      by_cases hkn : k = n
      · subst hkn; exact Bool.eq_false_iff.2 hm
      · exact h3 k hk1 (by omega)

theorem lastMarkerAux_none {s : Str} :
    ∀ {n : Nat}, lastMarkerAux s n = none → ∀ k, k < n → markerAt s k = false := by
  intro n
  induction n with
  | zero => intro _ k hk; omega
  | succ n ih =>
    intro h k hk
    unfold lastMarkerAux at h
    by_cases hm : markerAt s n
    · rw [if_pos hm] at h; cases h
    · rw [if_neg hm] at h
      by_cases hkn : k = n
      · subst hkn; exact Bool.eq_false_iff.2 hm
      · exact ih h k (by omega)

/-! ### Facts about the cache dictionary and the scan loop -/

theorem timeClose_iff (a b : ℚ) : timeClose a b = true ↔ |a - b| < timeEps := by
  have hda : (0:ℚ) < (a.den : ℚ) := by exact_mod_cast a.den_pos
  have hdb : (0:ℚ) < (b.den : ℚ) := by exact_mod_cast b.den_pos
  have hD : (0:ℚ) < (a.den : ℚ) * (b.den : ℚ) := mul_pos hda hdb
  have ha : a * (a.den : ℚ) = (a.num : ℚ) := by
    nth_rewrite 1 [← Rat.num_div_den a]
    exact div_mul_cancel₀ _ hda.ne'
  have hb : b * (b.den : ℚ) = (b.num : ℚ) := by
    nth_rewrite 1 [← Rat.num_div_den b]
    exact div_mul_cancel₀ _ hdb.ne'
  have hX : a - b = ((a.num * b.den - b.num * a.den : ℤ) : ℚ)
      / ((a.den : ℚ) * (b.den : ℚ)) := by
    rw [eq_div_iff hD.ne']
    push_cast
    calc (a - b) * ((a.den : ℚ) * (b.den : ℚ))
        = a * (a.den : ℚ) * (b.den : ℚ) - b * (b.den : ℚ) * (a.den : ℚ) := by
          ring
      _ = (a.num : ℚ) * (b.den : ℚ) - (b.num : ℚ) * (a.den : ℚ) := by
          rw [ha, hb]
  unfold timeClose timeEps
  rw [decide_eq_true_eq, hX, abs_div, abs_of_pos hD, Rat.mkRat_eq_div,
    div_lt_div_iff₀ hD (by norm_num : (0:ℚ) < ((1000000000 : ℕ) : ℚ)),
    Int.cast_one, one_mul, ← Int.cast_abs, ← Int.cast_natAbs]
  norm_cast

theorem timeClose_self (m : ℚ) : timeClose m m = true := by
  unfold timeClose
  rw [decide_eq_true_eq, sub_self]
  simp only [Int.natAbs_zero, Nat.zero_mul]
  exact Nat.mul_pos m.den_pos m.den_pos

theorem cacheGet_set_self (c : Cache) (p : Str) (e : CEntry) :
    cacheGet (cacheSet c p e) p = some e := by
  induction c with
  | nil => simp [cacheSet, cacheGet]
  | cons qe rest ih =>
    obtain ⟨q, e0⟩ := qe
    by_cases h : q = p
    · simp [cacheSet, if_pos h, cacheGet]
    · simp [cacheSet, if_neg h, cacheGet, ih]

theorem cacheGet_set_ne (c : Cache) {p q : Str} (e : CEntry) (h : p ≠ q) :
    cacheGet (cacheSet c p e) q = cacheGet c q := by
  induction c with
  | nil => simp [cacheSet, cacheGet, if_neg h]
  | cons qe rest ih =>
    obtain ⟨q0, e0⟩ := qe
    by_cases h0 : q0 = p
    · subst h0
      simp [cacheSet, cacheGet, if_neg h, ih]
    · simp only [cacheSet, if_neg h0, cacheGet]
      by_cases h1 : q0 = q
      · simp [if_pos h1]
      · simp [if_neg h1, ih]

theorem cacheGet_set_isSome (c : Cache) (p q : Str) (e : CEntry)
    (h : (cacheGet c q).isSome = true) :
    (cacheGet (cacheSet c p e) q).isSome = true := by
  by_cases hpq : p = q
  · subst hpq
    rw [cacheGet_set_self]
    rfl
  · rwa [cacheGet_set_ne c e hpq]


theorem processFile_ok_cases {c : Cache} {f : PFile} {ts : List Str}
    {c2 : Cache} {did : Bool} (h : processFile c f = .ok (ts, c2, did)) :
    (did = false ∧ c2 = c ∧
      ∃ mo, cacheGet c f.path = some (.obj (some ts) mo) ∧
        timeClose (mo.getD 0) f.mtime = true) ∨
    (did = true ∧ ts = tagsOfMeta f.meta ∧
      c2 = cacheSet c f.path (.obj (some ts) (some f.mtime))) := by
  unfold processFile at h
  split at h
  · exact Except.noConfusion h
  · rename_i tagsOpt mtimeOpt heq
    split at h
    · rename_i hclose
      split at h
      · rename_i ts0 heq2
        simp only [Except.ok.injEq, Prod.mk.injEq] at h
        obtain ⟨h1, h2, h3⟩ := h
        refine Or.inl ⟨h3.symm, h2.symm, mtimeOpt, ?_, hclose⟩
        rw [heq, h1]
      · exact Except.noConfusion h
    · simp only [parse_and_store_tags, Except.ok.injEq, Prod.mk.injEq] at h
      obtain ⟨h1, h2, h3⟩ := h
      exact Or.inr ⟨h3.symm, h1.symm, by rw [← h1, h2]⟩
  · rename_i heq
    simp only [parse_and_store_tags, Except.ok.injEq, Prod.mk.injEq] at h
    obtain ⟨h1, h2, h3⟩ := h
    exact Or.inr ⟨h3.symm, h1.symm, by rw [← h1, h2]⟩

theorem processFile_fresh {c : Cache} {f : PFile} {ts : List Str}
    {mo : Option ℚ} (hget : cacheGet c f.path = some (.obj (some ts) mo))
    (hclose : timeClose (mo.getD 0) f.mtime = true) :
    processFile c f = .ok (ts, c, false) := by
  unfold processFile
  rw [hget]
  simp [hclose]

theorem processFile_stale {c : Cache} {f : PFile} {tso : Option (List Str)}
    {mo : Option ℚ} (hget : cacheGet c f.path = some (.obj tso mo))
    (hfar : timeClose (mo.getD 0) f.mtime = false) :
    processFile c f = .ok (tagsOfMeta f.meta,
      cacheSet c f.path (.obj (some (tagsOfMeta f.meta)) (some f.mtime)),
      true) := by
  unfold processFile
  rw [hget]
  simp [hfar, parse_and_store_tags]

theorem processFile_missing {c : Cache} {f : PFile}
    (hget : cacheGet c f.path = none) :
    processFile c f = .ok (tagsOfMeta f.meta,
      cacheSet c f.path (.obj (some (tagsOfMeta f.meta)) (some f.mtime)),
      true) := by
  unfold processFile
  rw [hget]
  simp [parse_and_store_tags]

theorem scanStep_frame {st st1 : ScanState} {f : PFile} {p : Str}
    (h : scanStep st f = .ok st1) (hne : f.path ≠ p) :
    cacheGet st1.cache p = cacheGet st.cache p := by
  unfold scanStep at h
  split at h
  · split at h
    · exact Except.noConfusion h
    · rename_i ts c2 did hpf
      cases h
      rcases processFile_ok_cases hpf with ⟨-, hc, -⟩ | ⟨-, -, hc⟩
      · rw [hc]
      · simp only [hc]
        exact cacheGet_set_ne _ _ hne
  · cases h
    rfl

theorem scanStep_isSome {st st1 : ScanState} {f : PFile} {p : Str}
    (h : scanStep st f = .ok st1)
    (hs : (cacheGet st.cache p).isSome = true) :
    (cacheGet st1.cache p).isSome = true := by
  unfold scanStep at h
  split at h
  · split at h
    · exact Except.noConfusion h
    · rename_i ts c2 did hpf
      cases h
      rcases processFile_ok_cases hpf with ⟨-, hc, -⟩ | ⟨-, -, hc⟩
      · rwa [hc]
      · simp only [hc]
        exact cacheGet_set_isSome _ _ _ _ hs
  · cases h
    exact hs

theorem scanStep_covers {st st1 : ScanState} {f : PFile}
    (h : scanStep st f = .ok st1) (hpng : endsWithPng f.path = true) :
    ∃ ts mo, cacheGet st1.cache f.path = some (.obj (some ts) mo) ∧
      timeClose (mo.getD 0) f.mtime = true ∧
      st1.images = st.images ++ [(f.path, ts)] ∧
      st1.allTags = addAll st.allTags ts := by
  unfold scanStep at h
  rw [if_pos hpng] at h
  split at h
  · exact Except.noConfusion h
  · rename_i ts c2 did hpf
    cases h
    rcases processFile_ok_cases hpf with ⟨-, hc, mo, hget, hclose⟩ | ⟨-, -, hc⟩
    · exact ⟨ts, mo, by rw [hc]; exact hget, hclose, rfl, rfl⟩
    · refine ⟨ts, some f.mtime, ?_, timeClose_self f.mtime, rfl, rfl⟩
      rw [hc]
      exact cacheGet_set_self _ _ _

theorem runScan_frame : ∀ (fs : List PFile) {st st2 : ScanState} {p : Str},
    runScan st fs = .ok st2 → (∀ f ∈ fs, f.path ≠ p) →
    cacheGet st2.cache p = cacheGet st.cache p := by
  intro fs
  induction fs with
  | nil =>
    intro st st2 p h hne
    simp only [runScan] at h
    cases h
    rfl
  | cons f fs ih =>
    intro st st2 p h hne
    simp only [runScan] at h
    split at h
    · exact Except.noConfusion h
    · rename_i st1 hstep
      rw [ih h (fun g hg => hne g (List.mem_cons_of_mem f hg))]
      exact scanStep_frame hstep (hne f (List.mem_cons_self f fs))

theorem runScan_isSome : ∀ (fs : List PFile) {st st2 : ScanState} {p : Str},
    runScan st fs = .ok st2 → (cacheGet st.cache p).isSome = true →
    (cacheGet st2.cache p).isSome = true := by
  intro fs
  induction fs with
  | nil =>
    intro st st2 p h hs
    simp only [runScan] at h
    cases h
    exact hs
  | cons f fs ih =>
    intro st st2 p h hs
    simp only [runScan] at h
    split at h
    · exact Except.noConfusion h
    · rename_i st1 hstep
      exact ih h (scanStep_isSome hstep hs)

theorem runScan_append : ∀ (l1 l2 : List PFile) (st : ScanState),
    runScan st (l1 ++ l2) = match runScan st l1 with
      | .error e => .error e
      | .ok st1 => runScan st1 l2 := by
  intro l1
  induction l1 with
  | nil => intro l2 st; rfl
  | cons f fs ih =>
    intro l2 st
    show runScan st (f :: (fs ++ l2)) = _
    simp only [runScan]
    cases scanStep st f with
    | error e => rfl
    | ok st1 => exact ih l2 st1

theorem runScan_idem : ∀ (fs : List PFile) {st stF : ScanState} (ex2 : List Str),
    (fs.map PFile.path).Nodup → runScan st fs = .ok stF →
    runScan ⟨st.images, st.allTags, stF.cache, ex2⟩ fs
      = .ok ⟨stF.images, stF.allTags, stF.cache, ex2⟩ := by
  intro fs
  induction fs with
  | nil =>
    intro st stF ex2 hnd h
    simp only [runScan] at h ⊢
    cases h
    rfl
  | cons f fs ih =>
    intro st stF ex2 hnd h
    simp only [runScan] at h
    split at h
    · exact Except.noConfusion h
    · rename_i st1 hstep
      simp only [List.map_cons, List.nodup_cons] at hnd
      obtain ⟨hnotmem, hnd2⟩ := hnd
      by_cases hpng : endsWithPng f.path = true
      · obtain ⟨ts, mo, hget1, hclose, him, hat⟩ := scanStep_covers hstep hpng
        have hne : ∀ g ∈ fs, g.path ≠ f.path := by
          intro g hg hEq
          exact hnotmem (hEq ▸ List.mem_map_of_mem PFile.path hg)
        have hgetF : cacheGet stF.cache f.path = some (.obj (some ts) mo) := by
          rw [runScan_frame fs h hne]
          exact hget1
        have hstep2 : scanStep ⟨st.images, st.allTags, stF.cache, ex2⟩ f
            = .ok ⟨st1.images, st1.allTags, stF.cache, ex2⟩ := by
          simp [scanStep, hpng, processFile_fresh hgetF hclose, him, hat]
        simp only [runScan]
        rw [hstep2]
        exact ih ex2 hnd2 h
      · have hst1 : st1 = st := by
          unfold scanStep at hstep
          rw [if_neg hpng] at hstep
          cases hstep
          rfl
        rw [hst1] at h
        have hstep2 : scanStep ⟨st.images, st.allTags, stF.cache, ex2⟩ f
            = .ok ⟨st.images, st.allTags, stF.cache, ex2⟩ := by
          unfold scanStep
          rw [if_neg hpng]
        simp only [runScan]
        rw [hstep2]
        exact ih ex2 hnd2 h

theorem runScan_fresh : ∀ (fs : List PFile) (st : ScanState),
    (∀ f ∈ fs, endsWithPng f.path = true → isFreshEntry st.cache f = true) →
    ∃ im2 at2, runScan st fs = .ok ⟨im2, at2, st.cache, st.extracted⟩ := by
  intro fs
  induction fs with
  | nil =>
    intro st h
    exact ⟨st.images, st.allTags, rfl⟩
  | cons f fs ih =>
    intro st h
    by_cases hpng : endsWithPng f.path = true
    · have hf := h f (List.mem_cons_self f fs) hpng
      cases hget : cacheGet st.cache f.path with
      | none => simp [isFreshEntry, hget] at hf
      | some e =>
        cases e with
        | nonObj => simp [isFreshEntry, hget] at hf
        | obj tso mo =>
          cases tso with
          | none => simp [isFreshEntry, hget] at hf
          | some ts =>
            simp only [isFreshEntry, hget] at hf
            have hstep : scanStep st f = .ok ⟨st.images ++ [(f.path, ts)],
                addAll st.allTags ts, st.cache, st.extracted⟩ := by
              simp [scanStep, hpng, processFile_fresh hget hf]
            obtain ⟨im2, at2, hrest⟩ :=
              ih ⟨st.images ++ [(f.path, ts)], addAll st.allTags ts,
                  st.cache, st.extracted⟩
                (fun g hg hp => h g (List.mem_cons_of_mem f hg) hp)
            refine ⟨im2, at2, ?_⟩
            simp only [runScan]
            rw [hstep]
            exact hrest
    · have hstep : scanStep st f = .ok st := by
        unfold scanStep
        rw [if_neg hpng]
      obtain ⟨im2, at2, hrest⟩ :=
        ih st (fun g hg hp => h g (List.mem_cons_of_mem f hg) hp)
      refine ⟨im2, at2, ?_⟩
      simp only [runScan]
      rw [hstep]
      exact hrest

theorem isFreshEntry_set_ne {c : Cache} {p0 : Str} {e : CEntry} {g : PFile}
    (h : g.path ≠ p0) : isFreshEntry (cacheSet c p0 e) g = isFreshEntry c g := by
  unfold isFreshEntry
  rw [cacheGet_set_ne c e (Ne.symm h)]

theorem scan_one_stale (pre post : List PFile) (f0 : PFile) (c : Cache)
    (hpre : ∀ f ∈ pre, endsWithPng f.path = true → isFreshEntry c f = true)
    (hpost : ∀ f ∈ post, endsWithPng f.path = true → isFreshEntry c f = true)
    (hpostne : ∀ f ∈ post, f.path ≠ f0.path)
    (hpng : endsWithPng f0.path = true)
    (hstale : isStaleEntry c f0 = true) :
    ∃ im2 at2, runScan ⟨[], [], c, []⟩ (pre ++ f0 :: post)
      = .ok ⟨im2, at2,
          cacheSet c f0.path (.obj (some (tagsOfMeta f0.meta)) (some f0.mtime)),
          [f0.path]⟩ := by
  obtain ⟨im1, at1, h1⟩ := runScan_fresh pre ⟨[], [], c, []⟩ hpre
  cases hget : cacheGet c f0.path with
  | none => simp [isStaleEntry, hget] at hstale
  | some e =>
    cases e with
    | nonObj => simp [isStaleEntry, hget] at hstale
    | obj tso mo =>
      simp only [isStaleEntry, hget, Bool.not_eq_true'] at hstale
      have hstep : scanStep ⟨im1, at1, c, []⟩ f0
          = .ok ⟨im1 ++ [(f0.path, tagsOfMeta f0.meta)],
              addAll at1 (tagsOfMeta f0.meta),
              cacheSet c f0.path (.obj (some (tagsOfMeta f0.meta)) (some f0.mtime)),
              [f0.path]⟩ := by
        simp [scanStep, hpng, processFile_stale hget hstale]
      have hpost2 : ∀ f ∈ post, endsWithPng f.path = true →
          isFreshEntry (cacheSet c f0.path
            (.obj (some (tagsOfMeta f0.meta)) (some f0.mtime))) f = true := by
        intro f hf hp
        rw [isFreshEntry_set_ne (hpostne f hf)]
        exact hpost f hf hp
      obtain ⟨im3, at3, h3⟩ :=
        runScan_fresh post ⟨im1 ++ [(f0.path, tagsOfMeta f0.meta)],
            addAll at1 (tagsOfMeta f0.meta),
            cacheSet c f0.path (.obj (some (tagsOfMeta f0.meta)) (some f0.mtime)),
            [f0.path]⟩ hpost2
      refine ⟨im3, at3, ?_⟩
      rw [runScan_append pre (f0 :: post) _, h1]
      show runScan ⟨im1, at1, c, []⟩ (f0 :: post) = _
      simp only [runScan]
      rw [hstep]
      exact h3

theorem markerAt_lt_length {s : Str} {j : Nat} (h : markerAt s j = true) :
    j < s.length := by
  have h2 := markerAt_le_length h
  have h3 : negMarker.length = 16 := rfl
  omega

/-! ### The claims -/

/-- C1, counterexample: on a text with two occurrences of
`"Negative prompt:"` (the first at index 3), the code keeps the prefix
before the LAST occurrence, not the first: the parsed positive prompt is not
the trimmed prefix before index 3, and the tag `"negative prompt: b"` —
which lies beyond the first occurrence — survives into the extracted tag
set. -/
theorem C1_first_marker_cex :
    markerAt twoMarkerText 3 = true ∧
    (∀ i, i < 3 → markerAt twoMarkerText i = false) ∧
    parse_positive_prompt twoMarkerText ≠ pyStrip (twoMarkerText.take 3) ∧
    "negative prompt: b".data ∈ extract_tags twoMarkerText := by
  decide

/-- C1 (amended): `parse_positive_prompt` keeps the prefix of the raw text
preceding the LAST case-insensitive occurrence of `"Negative prompt:"`
(the regex `(.*)Negative prompt:` is greedy), trimmed of whitespace; when
the marker does not occur, the whole text is kept, trimmed. -/
theorem C1_last_marker (s : Str) (j : Nat) :
    (markerAt s j = true →
      (∀ k, k < s.length → markerAt s k = true → k ≤ j) →
      parse_positive_prompt s = pyStrip (s.take j)) ∧
    ((∀ i, i < s.length → markerAt s i = false) →
      parse_positive_prompt s = pyStrip s) := by
  constructor
  · intro hj hmax
    unfold parse_positive_prompt lastMarkerPos
    cases hlast : lastMarkerAux s s.length with
    | none =>
      have hf := lastMarkerAux_none hlast j (markerAt_lt_length hj)
      rw [hj] at hf
      cases hf
    | some j2 =>
      obtain ⟨h1, h2, h3⟩ := lastMarkerAux_some hlast
      have hj2le : j2 ≤ j := hmax j2 (markerAt_lt_length h1) h1
      have hjle : j ≤ j2 := by
        by_contra hlt
        push_neg at hlt
        have hf := h3 j hlt (markerAt_lt_length hj)
        rw [hj] at hf
        cases hf
      have hEq : j2 = j := le_antisymm hj2le hjle
      show pyStrip (s.take j2) = pyStrip (s.take j)
      rw [hEq]
  · intro hall
    unfold parse_positive_prompt lastMarkerPos
    cases hlast : lastMarkerAux s s.length with
    | none => rfl
    | some j2 =>
      obtain ⟨h1, -, -⟩ := lastMarkerAux_some hlast
      rw [hall j2 (markerAt_lt_length h1)] at h1
      cases h1

/-- Witness for C1: on the two-marker text the kept prefix ends at index 23,
the position of the last occurrence; on marker-free text everything is
kept. -/
theorem C1_last_marker_witness :
    parse_positive_prompt twoMarkerText = pyStrip (twoMarkerText.take 23) ∧
    parse_positive_prompt "plain text".data = pyStrip "plain text".data :=
  ⟨(C1_last_marker twoMarkerText 23).1 (by decide) (by decide),
   (C1_last_marker "plain text".data 0).2 (by decide)⟩

/-- C2, counterexample: `os.walk` on a missing or inaccessible root yields
no entries and raises nothing, so `load_images_and_tags` returns the empty
`(images, vocabulary)` result successfully instead of failing. -/
theorem C2_missing_root_cex :
    load_images_and_tags walkMissingRoot .absent = .ok ⟨[], [], .valid [], []⟩ :=
  rfl

/-- C2 (amended): for a missing or inaccessible root directory the walk is
empty, and the scan call succeeds, returning no images, an empty vocabulary,
and saving the loaded cache back unchanged — no error is surfaced to the
caller. -/
theorem C2_missing_root_empty (cf : CacheFile) :
    load_images_and_tags walkMissingRoot cf
      = .ok ⟨[], [], save_cache (load_cache cf), []⟩ :=
  rfl

/-- Witness for C2 at a concrete cache state. -/
theorem C2_missing_root_empty_witness :
    load_images_and_tags walkMissingRoot .corrupt
      = .ok ⟨[], [], save_cache (load_cache .corrupt), []⟩ :=
  C2_missing_root_empty .corrupt

/-- C3: `load_cache` never propagates a failure — a missing cache file
yields the empty Index, a file whose content fails to parse also yields the
empty Index (the unreadable data is discarded), and a successfully parsed
file is returned whole, never partially merged. -/
theorem C3_load_cache_recovery :
    load_cache .absent = [] ∧ load_cache .corrupt = [] ∧
    ∀ c, load_cache (.valid c) = c :=
  ⟨rfl, rfl, fun _ => rfl⟩

/-- Witness for C3 at a concrete parsed cache. -/
theorem C3_load_cache_recovery_witness :
    load_cache (.valid [("p".data, .nonObj)]) = [("p".data, .nonObj)] :=
  C3_load_cache_recovery.2.2 [("p".data, .nonObj)]

/-- C4: when per-file extraction raises, `parse_and_store_tags` still writes
the Index entry with an empty tag set and the file's current mtime and
returns normally; a scan over such a file succeeds (records the failure),
and a subsequent scan with the same mtime performs no extraction attempt at
all — the empty tag set is reused from the cache. -/
theorem C4_negative_caching (f : PFile) (hmeta : f.meta = none)
    (hpng : endsWithPng f.path = true) :
    (∀ c, parse_and_store_tags f.path f.mtime f.meta c
        = ([], cacheSet c f.path (.obj (some []) (some f.mtime)))) ∧
    load_images_and_tags [f] .absent
      = .ok ⟨[(f.path, [])], [],
          .valid [(f.path, .obj (some []) (some f.mtime))], [f.path]⟩ ∧
    load_images_and_tags [f] (.valid [(f.path, .obj (some []) (some f.mtime))])
      = .ok ⟨[(f.path, [])], [],
          .valid [(f.path, .obj (some []) (some f.mtime))], []⟩ := by
  refine ⟨?_, ?_, ?_⟩
  · intro c
    simp [parse_and_store_tags, hmeta, tagsOfMeta]
  · have h1 : processFile [] f
        = .ok ([], [(f.path, .obj (some []) (some f.mtime))], true) := by
      have h0 := processFile_missing (c := []) (f := f) rfl
      rw [hmeta] at h0
      simpa [tagsOfMeta, cacheSet] using h0
    have hstep : scanStep ⟨[], [], [], []⟩ f
        = .ok ⟨[(f.path, [])], [],
            [(f.path, .obj (some []) (some f.mtime))], [f.path]⟩ := by
      simp [scanStep, hpng, h1, addAll]
    have hrun : runScan ⟨[], [], [], []⟩ [f]
        = .ok ⟨[(f.path, [])], [],
            [(f.path, .obj (some []) (some f.mtime))], [f.path]⟩ := by
      simp only [runScan]
      rw [hstep]
    unfold load_images_and_tags
    rw [show (⟨[], [], load_cache .absent, []⟩ : ScanState)
        = ⟨[], [], [], []⟩ from rfl]
    rw [hrun]
    rfl
  · have hget : cacheGet [(f.path, CEntry.obj (some []) (some f.mtime))] f.path
        = some (.obj (some []) (some f.mtime)) := by
      simp [cacheGet]
    have h1 : processFile [(f.path, CEntry.obj (some []) (some f.mtime))] f
        = .ok ([], [(f.path, CEntry.obj (some []) (some f.mtime))], false) :=
      processFile_fresh hget (timeClose_self f.mtime)
    have hstep : scanStep ⟨[], [], [(f.path, CEntry.obj (some []) (some f.mtime))], []⟩ f
        = .ok ⟨[(f.path, [])], [],
            [(f.path, CEntry.obj (some []) (some f.mtime))], []⟩ := by
      simp [scanStep, hpng, h1, addAll]
    have hrun : runScan ⟨[], [], [(f.path, CEntry.obj (some []) (some f.mtime))], []⟩ [f]
        = .ok ⟨[(f.path, [])], [],
            [(f.path, CEntry.obj (some []) (some f.mtime))], []⟩ := by
      simp only [runScan]
      rw [hstep]
    unfold load_images_and_tags
    rw [show (⟨[], [], load_cache
          (.valid [(f.path, CEntry.obj (some []) (some f.mtime))]), []⟩ : ScanState)
        = ⟨[], [], [(f.path, CEntry.obj (some []) (some f.mtime))], []⟩ from rfl]
    rw [hrun]
    rfl

/-- Witness for C4 on a concrete unreadable file. -/
theorem C4_negative_caching_witness :
    load_images_and_tags [fileBad] .absent
      = .ok ⟨[(fileBad.path, [])], [],
          .valid [(fileBad.path, .obj (some []) (some fileBad.mtime))],
          [fileBad.path]⟩ ∧
    load_images_and_tags [fileBad]
        (.valid [(fileBad.path, .obj (some []) (some fileBad.mtime))])
      = .ok ⟨[(fileBad.path, [])], [],
          .valid [(fileBad.path, .obj (some []) (some fileBad.mtime))], []⟩ :=
  ⟨(C4_negative_caching fileBad rfl (by decide)).2.1,
   (C4_negative_caching fileBad rfl (by decide)).2.2⟩

/-- C5: scanning an unchanged directory twice is idempotent — when a first
scan over files with distinct paths succeeds and saves Index `c1`, a second
scan over the same files starting from `c1` returns the identical images and
vocabulary, leaves the Index content exactly `c1`, and performs zero
extraction attempts; moreover, whenever a well-formed entry exists for a
file's path whose recorded mtime is within `1e-9` of the current one, the
stored tags are reused with no extraction and no cache change. -/
theorem C5_scan_idempotent (files : List PFile) (cf : CacheFile)
    (out : ScanOut) (c1 : Cache)
    (hnd : (files.map PFile.path).Nodup)
    (h1 : load_images_and_tags files cf = .ok out)
    (hsaved : out.saved = .valid c1) :
    load_images_and_tags files (.valid c1)
        = .ok ⟨out.images, out.vocab, .valid c1, []⟩ ∧
    (∀ (c : Cache) (f : PFile) (ts : List Str) (mo : Option ℚ),
      cacheGet c f.path = some (.obj (some ts) mo) →
      timeClose (mo.getD 0) f.mtime = true →
      processFile c f = .ok (ts, c, false)) := by
  constructor
  · unfold load_images_and_tags at h1
    split at h1
    · exact Except.noConfusion h1
    · rename_i st hrun
      cases h1
      have hc1 : c1 = st.cache := by
        simp [save_cache] at hsaved
        exact hsaved.symm
      subst hc1
      have h2 : runScan ⟨[], [], st.cache, []⟩ files
          = .ok ⟨st.images, st.allTags, st.cache, []⟩ :=
        runScan_idem files [] hnd hrun
      unfold load_images_and_tags
      rw [show (⟨[], [], load_cache (.valid st.cache), []⟩ : ScanState)
          = ⟨[], [], st.cache, []⟩ from rfl]
      rw [h2]
      rfl
  · exact fun c f ts mo hget hclose => processFile_fresh hget hclose

/-- Witness for C5: re-scanning a one-file directory reuses the saved cache
and extracts nothing. -/
theorem C5_scan_idempotent_witness :
    load_images_and_tags [fileXY]
        (.valid [("a.png".data, .obj (some ["x".data, "y".data]) (some (mkRat 5 1)))])
      = .ok ⟨[("a.png".data, ["x".data, "y".data])], ["x".data, "y".data],
          .valid [("a.png".data, .obj (some ["x".data, "y".data]) (some (mkRat 5 1)))],
          []⟩ :=
  (C5_scan_idempotent [fileXY] .absent
    ⟨[("a.png".data, ["x".data, "y".data])], ["x".data, "y".data],
      .valid [("a.png".data, .obj (some ["x".data, "y".data]) (some (mkRat 5 1)))],
      ["a.png".data]⟩
    [("a.png".data, .obj (some ["x".data, "y".data]) (some (mkRat 5 1)))]
    (by decide) rfl rfl).1

/-- C6: the query filter keeps exactly the images whose tag list contains
every selected tag — with an empty selection it is the identity on
`images_data`, and in general a path is returned precisely when some listed
image carries it and its tags are a superset of the query, matching by
string equality. -/
theorem C6_query_filter (images : List (Str × List Str)) (selected : List Str) :
    filterImages images [] = images ∧
    (∀ p, p ∈ (filterImages images selected).map Prod.fst ↔
      ∃ im ∈ images, im.1 = p ∧ ∀ q ∈ selected, q ∈ im.2) := by
  constructor
  · rfl
  · intro p
    unfold filterImages
    by_cases hsel : selected.isEmpty
    · rw [if_pos hsel]
      have hnil : selected = [] := by
        cases selected with
        | nil => rfl
        | cons a l => cases hsel
      subst hnil
      simp [List.mem_map]
    · rw [if_neg hsel]
      simp only [List.mem_map, List.mem_filter, decide_eq_true_eq]
      constructor
      · rintro ⟨a, ⟨ha, hq⟩, rfl⟩
        exact ⟨a, ha, rfl, hq⟩
      · rintro ⟨im, him, rfl, hq⟩
        exact ⟨im, ⟨him, hq⟩, rfl⟩

/-- Witness for C6 on the three-image fixture: the matching image is kept,
the disjoint one is not. -/
theorem C6_query_filter_witness :
    ("p1".data ∈ (filterImages imagesFix ["x".data, "y".data]).map Prod.fst ↔
      ∃ im ∈ imagesFix, im.1 = "p1".data ∧
        ∀ q ∈ ["x".data, "y".data], q ∈ im.2) ∧
    ("p3".data ∈ (filterImages imagesFix ["x".data, "y".data]).map Prod.fst ↔
      ∃ im ∈ imagesFix, im.1 = "p3".data ∧
        ∀ q ∈ ["x".data, "y".data], q ∈ im.2) :=
  ⟨(C6_query_filter imagesFix ["x".data, "y".data]).2 "p1".data,
   (C6_query_filter imagesFix ["x".data, "y".data]).2 "p3".data⟩

/-- C7: `clean_prompt_text` removes every parenthesis character first and
only afterwards removes colon-number weight suffixes, so suffixes exposed by
parenthesis removal are stripped: `"(character:1.6)"` cleans to
`"character"`, and the spec's example
`extract_tags("(character:1.6), (blue sky)")` yields exactly the tag set
`{"character", "blue sky"}`. -/
theorem C7_clean_order :
    (∀ s, clean_prompt_text s = removeColonNum (removeParens s)) ∧
    clean_prompt_text "(character:1.6)".data = "character".data ∧
    (extract_tags "(character:1.6), (blue sky)".data).toFinset
      = {"character".data, "blue sky".data} :=
  ⟨fun _ => rfl, by decide, by decide⟩

/-- Witness for C7 at a concrete prompt. -/
theorem C7_clean_order_witness :
    clean_prompt_text "(a:1.2), b".data
      = removeColonNum (removeParens "(a:1.2), b".data) :=
  C7_clean_order.1 "(a:1.2), b".data

/-- C8: every tag produced by `extract_tags` is non-empty, is a fixed point
of both whitespace-trimming and lower-casing, and contains no comma; the
returned tag list is duplicate-free, and `extract_tags("a, A, a ")` is
exactly the tag set `{"a"}`. -/
theorem C8_tag_invariants :
    (∀ s t, t ∈ extract_tags s →
      t ≠ [] ∧ pyStrip t = t ∧ pyLower t = t ∧ ',' ∉ t) ∧
    (∀ s, (extract_tags s).Nodup) ∧
    (extract_tags "a, A, a ".data).toFinset = {"a".data} := by
  refine ⟨?_, fun s => List.nodup_dedup _, by decide⟩
  intro s t ht
  unfold extract_tags tokenize_prompt at ht
  rw [List.mem_dedup, List.mem_map] at ht
  obtain ⟨piece, hpiece, rfl⟩ := ht
  rw [List.mem_filter] at hpiece
  obtain ⟨hmem, hne⟩ := hpiece
  have hne2 : pyStrip piece ≠ [] := by
    intro h0
    rw [h0] at hne
    cases hne
  refine ⟨?_, ?_, pyLower_pyLower _, ?_⟩
  · intro h0
    exact hne2 (List.map_eq_nil_iff.mp h0)
  · rw [pyStrip_pyLower, pyStrip_pyStrip]
  · intro hc
    rw [pyLower, List.mem_map] at hc
    obtain ⟨c0, hc0, hlow⟩ := hc
    have hc0c : c0 = ',' := pyLowerChar_eq_comma hlow
    subst hc0c
    exact splitOnComma_no_comma _ piece hmem (mem_pyStrip hc0)

/-- Witness for C8 on the tag produced from `"a, A, a "`. -/
theorem C8_tag_invariants_witness :
    "a".data ≠ [] ∧ pyStrip "a".data = "a".data ∧
    pyLower "a".data = "a".data ∧ ',' ∉ "a".data :=
  C8_tag_invariants.1 "a, A, a ".data "a".data (by decide)

/-- C9: the scan never removes an Index entry — for any path not observed
during a successful scan, the saved Index maps it exactly as the loaded one
did, and any path present before is still present after; and when every
observed file is fresh in the cache except a single stale one, exactly that
file is re-extracted, its entry is overwritten with its new tags and current
mtime, and every other path's entry is untouched. -/
theorem C9_no_delete :
    (∀ (files : List PFile) (cf : CacheFile) (out : ScanOut) (p : Str),
      load_images_and_tags files cf = .ok out →
      ∀ c1, out.saved = .valid c1 →
        ((∀ f ∈ files, f.path ≠ p) →
          cacheGet c1 p = cacheGet (load_cache cf) p) ∧
        ((cacheGet (load_cache cf) p).isSome = true →
          (cacheGet c1 p).isSome = true)) ∧
    (∀ (pre post : List PFile) (f0 : PFile) (c : Cache),
      (∀ f ∈ pre, endsWithPng f.path = true → isFreshEntry c f = true) →
      (∀ f ∈ post, endsWithPng f.path = true → isFreshEntry c f = true) →
      (∀ f ∈ post, f.path ≠ f0.path) →
      endsWithPng f0.path = true →
      isStaleEntry c f0 = true →
      scanSaved (load_images_and_tags (pre ++ f0 :: post) (.valid c))
          = some (.valid (cacheSet c f0.path
              (.obj (some (tagsOfMeta f0.meta)) (some f0.mtime)))) ∧
      scanExtracted (load_images_and_tags (pre ++ f0 :: post) (.valid c))
          = some [f0.path] ∧
      cacheGet (cacheSet c f0.path
          (.obj (some (tagsOfMeta f0.meta)) (some f0.mtime))) f0.path
        = some (.obj (some (tagsOfMeta f0.meta)) (some f0.mtime)) ∧
      ∀ p, p ≠ f0.path →
        cacheGet (cacheSet c f0.path
            (.obj (some (tagsOfMeta f0.meta)) (some f0.mtime))) p
          = cacheGet c p) := by
  constructor
  · intro files cf out p h c1 hsaved
    unfold load_images_and_tags at h
    split at h
    · exact Except.noConfusion h
    · rename_i st hrun
      cases h
      have hc1 : c1 = st.cache := by
        simp [save_cache] at hsaved
        exact hsaved.symm
      subst hc1
      exact ⟨fun hne => runScan_frame files hrun hne,
             fun hs => runScan_isSome files hrun hs⟩
  · intro pre post f0 c hpre hpost hpostne hpng hstale
    obtain ⟨im2, at2, hrun⟩ :=
      scan_one_stale pre post f0 c hpre hpost hpostne hpng hstale
    have hload : load_images_and_tags (pre ++ f0 :: post) (.valid c)
        = .ok ⟨im2, sortStrs at2,
            .valid (cacheSet c f0.path
              (.obj (some (tagsOfMeta f0.meta)) (some f0.mtime))),
            [f0.path]⟩ := by
      unfold load_images_and_tags
      rw [show (⟨[], [], load_cache (.valid c), []⟩ : ScanState)
          = ⟨[], [], c, []⟩ from rfl]
      rw [hrun]
      rfl
    rw [hload]
    exact ⟨rfl, rfl, cacheGet_set_self _ _ _,
           fun p hp => cacheGet_set_ne _ _ (Ne.symm hp)⟩

/-- Witness for C9: an unobserved path keeps its entry, and on a two-file
walk with one stale file exactly that file is re-extracted and the saved
Index updates only its entry. -/
theorem C9_no_delete_witness :
    cacheGet cacheAB "b.png".data
        = cacheGet (load_cache (.valid cacheAB)) "b.png".data ∧
    scanSaved (load_images_and_tags ([fileA] ++ fileB :: []) (.valid cacheAB))
        = some (.valid (cacheSet cacheAB fileB.path
            (.obj (some (tagsOfMeta fileB.meta)) (some fileB.mtime)))) ∧
    scanExtracted (load_images_and_tags ([fileA] ++ fileB :: []) (.valid cacheAB))
        = some [fileB.path] :=
  ⟨(C9_no_delete.1 [fileA] (.valid cacheAB)
      ⟨[("a.png".data, ["x".data])], ["x".data], .valid cacheAB, []⟩
      "b.png".data rfl cacheAB rfl).1 (by decide),
   (C9_no_delete.2 [fileA] [] fileB cacheAB (by decide) (by decide)
      (by decide) (by decide) (by decide)).1,
   (C9_no_delete.2 [fileA] [] fileB cacheAB (by decide) (by decide)
      (by decide) (by decide) (by decide)).2.1⟩

/-- C10: when the parsed cache holds a malformed entry for an observed
file's path — a non-object value (so `.get` raises `AttributeError`), or an
object without a `"tags"` field whose recorded mtime (defaulting to 0 when
the `"mtime"` field is missing) matches the file's current mtime (so
`["tags"]` raises `KeyError`) — the scan call raises instead of recovering;
the empty-Index recovery happens only in `load_cache`, a successfully
parsed cache is used as-is. -/
theorem C10_malformed_entry (f : PFile) (c : Cache)
    (hpng : endsWithPng f.path = true) :
    (cacheGet c f.path = some .nonObj →
      load_images_and_tags [f] (.valid c) = .error .attrError) ∧
    (∀ mo, cacheGet c f.path = some (.obj none mo) →
      timeClose (mo.getD 0) f.mtime = true →
      load_images_and_tags [f] (.valid c) = .error .keyError) ∧
    load_cache (.valid c) = c := by
  refine ⟨?_, ?_, rfl⟩
  · intro hget
    have hpf : processFile c f = .error .attrError := by
      unfold processFile
      rw [hget]
    have hstep : scanStep ⟨[], [], c, []⟩ f = .error .attrError := by
      simp [scanStep, hpng, hpf]
    unfold load_images_and_tags
    rw [show (⟨[], [], load_cache (.valid c), []⟩ : ScanState)
        = ⟨[], [], c, []⟩ from rfl]
    rw [show runScan ⟨[], [], c, []⟩ [f] = .error .attrError from by
      simp only [runScan]; rw [hstep]]
  · intro mo hget hclose
    have hpf : processFile c f = .error .keyError := by
      unfold processFile
      rw [hget]
      simp [hclose]
    have hstep : scanStep ⟨[], [], c, []⟩ f = .error .keyError := by
      simp [scanStep, hpng, hpf]
    unfold load_images_and_tags
    rw [show (⟨[], [], load_cache (.valid c), []⟩ : ScanState)
        = ⟨[], [], c, []⟩ from rfl]
    rw [show runScan ⟨[], [], c, []⟩ [f] = .error .keyError from by
      simp only [runScan]; rw [hstep]]

/-- Witness for C10 on concrete malformed caches: a string entry aborts the
scan with `AttributeError`, and an object entry without tags but with a
matching mtime aborts it with `KeyError`. -/
theorem C10_malformed_entry_witness :
    load_images_and_tags [fileM] (.valid [("m.png".data, .nonObj)])
        = .error .attrError ∧
    load_images_and_tags [fileM]
        (.valid [("m.png".data, .obj none (some (mkRat 2 1)))])
        = .error .keyError :=
  ⟨(C10_malformed_entry fileM [("m.png".data, .nonObj)] (by decide)).1
      (by decide),
   (C10_malformed_entry fileM [("m.png".data, .obj none (some (mkRat 2 1)))]
      (by decide)).2.1 (some (mkRat 2 1)) (by decide) (by decide)⟩
